import Mathlib

/-!
Shallow embedding of `src/MatchingEngine.hpp` (namespace `Matching`):
a single-instrument matching engine with price/time priority.

Modelling conventions:
* `uint32_t` quantities are `Nat` with explicit wraparound `% 2^32` at the
  places the C++ performs unsigned arithmetic (`quantity_ - cum_qty_`,
  `cum_qty_ += qty`).
* `int64_t` prices are `Int` (no overflow occurs in price comparisons).
* Each side of the book (`std::multimap<TPrice, Order, TBetter>`) is a
  `List Order` kept sorted by the comparator of the side, entries with equal
  price in insertion order; `emplace` inserts at the upper bound of the
  equal range, i.e. after all entries whose key is not strictly worse.
* The identifier index `ids_ : unordered_map<TOrderId, iterator>` stores an
  iterator whose only observed fields are the field `side_` of the pointed order (read
  in `CancelExistingOrder`) and its node identity (erased by iterator).
  It is modelled as an association list from order id to the side recorded
  when the order was indexed; erasing by iterator becomes erasing the unique
  book entry with that id.
* The `MessageHub` side effects become an explicit list of emitted events,
  in emission order.
-/

namespace Matching

inductive Side where
  | Buy
  | Sell
deriving DecidableEq, Repr

inductive OrderType where
  | Market
  | Limit
deriving DecidableEq, Repr

/-- `Matching::Order`: id, price, total quantity, cumulative filled
quantity, side, type. -/
structure Order where
  order_id : Nat
  price : Int
  quantity : Nat
  cum_qty : Nat
  side : Side
  type : OrderType
deriving DecidableEq, Repr

/-- `2^32`, the modulus of `uint32_t` arithmetic. -/
def u32 : Nat := 4294967296

/-- `uint32_t` subtraction `a - b` for `a b < 2^32`. -/
def u32sub (a b : Nat) : Nat := (a + u32 - b) % u32

/-- The remaining (unfilled) quantity `quantity_ - cum_qty_`, computed with
`uint32_t` semantics exactly as the C++ does. -/
def leavesQty (o : Order) : Nat := u32sub o.quantity o.cum_qty

/-- The reject reasons used by the engine (`NotEnoughLiquidityMessage`,
`IdAlreadyExistsMessage`, `IdNotFoundMessage`). -/
inductive RejectMsg where
  | NotEnoughLiquidity
  | IdAlreadyExists
  | IdNotFound
deriving DecidableEq, Repr

/-- The messages sent through `MessageHub`: `Fill`, `Reject`, `Cancel`,
`OrderAck`. -/
inductive Event where
  | fill (order_id : Nat) (quantity : Nat) (price : Int)
  | reject (order_id : Nat) (message : RejectMsg)
  | cancel (order_id : Nat)
  | orderAck (order_id : Nat)
deriving DecidableEq, Repr

/-- `Better<Side::Buy> = std::greater<TPrice>`: on the bid book a higher
price sorts first. -/
def buyBetter (a b : Int) : Bool := decide (b < a)

/-- `Better<Side::Sell> = std::less<TPrice>`: on the ask book a lower price
sorts first. -/
def sellBetter (a b : Int) : Bool := decide (a < b)

/-- `multimap::emplace(o.price_, o)`: the new entry is placed at the upper
bound of the equal range of its key — before the first entry it strictly beats
under `comp`, after every other entry (in particular after all entries at
the same price, which is the FIFO/time-priority rule). -/
def insertOrder (comp : Int → Int → Bool) (o : Order) : List Order → List Order
  | [] => [o]
  | x :: xs =>
    if comp o.price x.price = true then o :: x :: xs
    else x :: insertOrder comp o xs

/-- `ids_.find(id)`: the side recorded for `id`, if indexed. -/
def idsFind (id : Nat) : List (Nat × Side) → Option Side
  | [] => none
  | (k, s) :: rest => if k = id then some s else idsFind id rest

/-- `ids_.erase(id)`: drop every entry keyed by `id` (keys are unique in any
reachable state). -/
def idsErase (id : Nat) : List (Nat × Side) → List (Nat × Side)
  | [] => []
  | (k, s) :: rest =>
    if k = id then idsErase id rest else (k, s) :: idsErase id rest

/-- `book.erase(it)` for the iterator stored under `id`: remove the (unique)
entry whose order id is `id`. -/
def eraseById (id : Nat) : List Order → List Order
  | [] => []
  | o :: rest => if o.order_id = id then rest else o :: eraseById id rest

/-- `MatchingEngine::Fill(order, qty, price)`: bump `cum_qty_` (with
`uint32_t` wraparound) and emit a `Fill` message. The assertion of the function
`quantity_ - cum_qty_ >= qty` is stated separately as `fillAssert`. -/
def fillOrder (o : Order) (qty : Nat) (price : Int) : Order × Event :=
  ({ o with cum_qty := (o.cum_qty + qty) % u32 }, Event.fill o.order_id qty price)

/-- The precondition asserted at the top of `MatchingEngine::Fill`. -/
def fillAssert (o : Order) (qty : Nat) : Prop := qty ≤ u32sub o.quantity o.cum_qty

/-- Result of one `MatchOne` call: the returned quantity, the updated
incoming order, the updated opposite book, the updated index, and the
emitted events. -/
structure MatchResult where
  traded : Nat
  order : Order
  other : List Order
  ids : List (Nat × Side)
  events : List Event
deriving DecidableEq, Repr

/-- `MatchingEngine::MatchOne(order, other_side)`.

Returns 0 when the opposite book is empty, when the incoming order has no
remaining quantity, or when a Limit order does not cross
(`!T::key_compare()(order.price_, first.price_)` fails).  Otherwise trades
`min` of the two remaining quantities at the price of the resting order, emits
the fill of the incoming order and then the fill of the resting order, and, when the
resting order is fully consumed, erases it from the book and calls
`ids_.erase(order.order_id_)` — note: the id of the *incoming* order, exactly as
the source does. -/
def matchOne (comp : Int → Int → Bool) (order : Order) (other : List Order)
    (ids : List (Nat × Side)) : MatchResult :=
  match other with
  | [] => ⟨0, order, [], ids, []⟩
  | first :: rest =>
    if u32sub order.quantity order.cum_qty = 0 then
      ⟨0, order, first :: rest, ids, []⟩
    else if (comp order.price first.price = false ∧ order.type = OrderType.Limit)
        ∨ order.type = OrderType.Market then
      let m := Nat.min (u32sub order.quantity order.cum_qty)
                       (u32sub first.quantity first.cum_qty)
      let p1 := fillOrder order m first.price
      let p2 := fillOrder first m first.price
      if p2.1.quantity = p2.1.cum_qty then
        ⟨m, p1.1, rest, idsErase order.order_id ids, [p1.2, p2.2]⟩
      else
        ⟨m, p1.1, p2.1 :: rest, ids, [p1.2, p2.2]⟩
    else ⟨0, order, first :: rest, ids, []⟩

/-- Result of the matching loop: updated incoming order, opposite book,
index, events. -/
structure LoopResult where
  order : Order
  other : List Order
  ids : List (Nat × Side)
  events : List Event
deriving DecidableEq, Repr

/-- `while (MatchOne(order, templates.Other));` — iterated as long as the
returned quantity is nonzero, with explicit fuel (the loop terminates
because each nonzero iteration strictly decreases the incoming
order remaining quantity; see the fuel-independence theorem). -/
def matchLoop (fuel : Nat) (comp : Int → Int → Bool) (order : Order)
    (other : List Order) (ids : List (Nat × Side)) : LoopResult :=
  match fuel with
  | 0 => ⟨order, other, ids, []⟩
  | Nat.succ fuel =>
    let r := matchOne comp order other ids
    if r.traded = 0 then ⟨r.order, r.other, r.ids, r.events⟩
    else
      let r2 := matchLoop fuel comp r.order r.other r.ids
      ⟨r2.order, r2.other, r2.ids, r.events ++ r2.events⟩

/-- Result of `ProcessOrder`: the book of the submitting side, the opposite
book, the index, the events. -/
structure ProcessResult where
  own : List Order
  other : List Order
  ids : List (Nat × Side)
  events : List Event
deriving DecidableEq, Repr

/-- `MatchingEngine::ProcessOrder(order, templates)`: market-order
liquidity guard, matching loop, then the terminal disposition (rest a
partially filled Limit and index it with an `OrderAck`, cancel a partially
filled Market, nothing when fully filled).  The loop fuel
`order.quantity + 1` is sufficient: the incoming order starts with
`cum_qty = 0` and each nonzero iteration strictly decreases its remaining
quantity. -/
def processOrder (ownComp otherComp : Int → Int → Bool) (order : Order)
    (own other : List Order) (ids : List (Nat × Side)) : ProcessResult :=
  if order.type = OrderType.Market ∧ other = [] then
    ⟨own, other, ids, [Event.reject order.order_id RejectMsg.NotEnoughLiquidity]⟩
  else
    let r := matchLoop (order.quantity + 1) otherComp order other ids
    if r.order.cum_qty ≠ r.order.quantity then
      if r.order.type = OrderType.Limit then
        ⟨insertOrder ownComp r.order own, r.other,
         (r.order.order_id, r.order.side) :: r.ids,
         r.events ++ [Event.orderAck r.order.order_id]⟩
      else
        ⟨own, r.other, r.ids, r.events ++ [Event.cancel r.order.order_id]⟩
    else ⟨own, r.other, r.ids, r.events⟩

/-- The engine state: bid book, ask book, identifier index. -/
structure EngineState where
  bids : List Order
  asks : List Order
  ids : List (Nat × Side)
deriving DecidableEq, Repr

def EngineState.empty : EngineState := ⟨[], [], []⟩

/-- `MatchingEngine::SubmitNewOrder(order)`: duplicate-id rejection, reset
`cum_qty_`, then `ProcessOrder` with the books wired for the side of the order. -/
def submitNewOrder (st : EngineState) (order : Order) : EngineState × List Event :=
  if (idsFind order.order_id st.ids).isSome then
    (st, [Event.reject order.order_id RejectMsg.IdAlreadyExists])
  else
    let order := { order with cum_qty := 0 }
    match order.side with
    | Side.Buy =>
      let r := processOrder buyBetter sellBetter order st.bids st.asks st.ids
      (⟨r.own, r.other, r.ids⟩, r.events)
    | Side.Sell =>
      let r := processOrder sellBetter buyBetter order st.asks st.bids st.ids
      (⟨r.other, r.own, r.ids⟩, r.events)

/-- `MatchingEngine::CancelExistingOrder(order)`: reject an unknown id;
otherwise inspect the side of the indexed order — and, exactly as in the source,
only the `Side::Buy` branch removes the order and emits a `Cancel`; a found
non-Buy order falls through with no effect and no event. -/
def cancelExistingOrder (st : EngineState) (order_id : Nat) : EngineState × List Event :=
  match idsFind order_id st.ids with
  | none => (st, [Event.reject order_id RejectMsg.IdNotFound])
  | some s =>
    if s = Side.Buy then
      (⟨eraseById order_id st.bids, st.asks, idsErase order_id st.ids⟩,
       [Event.cancel order_id])
    else (st, [])

/-! ### Basic facts about the machine arithmetic and the index -/

/-- Well-formedness of an order as a value of the C++ struct: `cum_qty_`
never exceeds `quantity_`, and `quantity_` fits in `uint32_t`. -/
def OrderWF (o : Order) : Prop := o.cum_qty ≤ o.quantity ∧ o.quantity < u32

instance (o : Order) : Decidable (OrderWF o) := by
  unfold OrderWF
  exact inferInstance

theorem u32sub_eq {a b : Nat} (hba : b ≤ a) (ha : a < u32) : u32sub a b = a - b := by
  unfold u32sub
  have h1 : a + u32 - b = (a - b) + u32 := by omega
  rw [h1, Nat.add_mod_right, Nat.mod_eq_of_lt (by omega)]

theorem leavesQty_eq {o : Order} (hwf : OrderWF o) :
    leavesQty o = o.quantity - o.cum_qty :=
  u32sub_eq hwf.1 hwf.2

theorem idsFind_idsErase_of_none {id k : Nat} {l : List (Nat × Side)}
    (h : idsFind id l = none) : idsFind id (idsErase k l) = none := by
  induction l with
  | nil => rfl
  | cons p rest ih =>
    obtain ⟨a, s⟩ := p
    by_cases hak : a = k
    · simp only [idsFind, idsErase, if_pos hak]
      by_cases hai : a = id
      · simp [idsFind, hai] at h
      · exact ih (by simpa [idsFind, hai] using h)
    · by_cases hai : a = id
      · simp [idsFind, hai] at h
      · simp only [idsFind, idsErase, if_neg hak, if_neg hai]
        exact ih (by simpa [idsFind, hai] using h)

/-! ### Case analysis of `MatchOne` -/

theorem matchOne_nil (comp : Int → Int → Bool) (order : Order)
    (ids : List (Nat × Side)) :
    matchOne comp order [] ids = ⟨0, order, [], ids, []⟩ := rfl

theorem matchOne_spent (comp : Int → Int → Bool) (order first : Order)
    (rest : List Order) (ids : List (Nat × Side))
    (h : leavesQty order = 0) :
    matchOne comp order (first :: rest) ids = ⟨0, order, first :: rest, ids, []⟩ := by
  simp only [matchOne, if_pos (show u32sub order.quantity order.cum_qty = 0 from h)]

theorem matchOne_nocross (comp : Int → Int → Bool) (order first : Order)
    (rest : List Order) (ids : List (Nat × Side))
    (h : leavesQty order ≠ 0)
    (hc : ¬ ((comp order.price first.price = false ∧ order.type = OrderType.Limit)
        ∨ order.type = OrderType.Market)) :
    matchOne comp order (first :: rest) ids = ⟨0, order, first :: rest, ids, []⟩ := by
  simp only [matchOne,
    if_neg (show ¬ u32sub order.quantity order.cum_qty = 0 from h), if_neg hc]

theorem matchOne_cross (comp : Int → Int → Bool) (order first : Order)
    (rest : List Order) (ids : List (Nat × Side))
    (h : leavesQty order ≠ 0)
    (hc : (comp order.price first.price = false ∧ order.type = OrderType.Limit)
        ∨ order.type = OrderType.Market) :
    matchOne comp order (first :: rest) ids =
      (if first.quantity = (first.cum_qty + Nat.min (leavesQty order) (leavesQty first)) % u32 then
        ⟨Nat.min (leavesQty order) (leavesQty first),
         { order with cum_qty :=
            (order.cum_qty + Nat.min (leavesQty order) (leavesQty first)) % u32 },
         rest, idsErase order.order_id ids,
         [Event.fill order.order_id (Nat.min (leavesQty order) (leavesQty first)) first.price,
          Event.fill first.order_id (Nat.min (leavesQty order) (leavesQty first)) first.price]⟩
      else
        ⟨Nat.min (leavesQty order) (leavesQty first),
         { order with cum_qty :=
            (order.cum_qty + Nat.min (leavesQty order) (leavesQty first)) % u32 },
         ({ first with cum_qty :=
            (first.cum_qty + Nat.min (leavesQty order) (leavesQty first)) % u32 }) :: rest,
         ids,
         [Event.fill order.order_id (Nat.min (leavesQty order) (leavesQty first)) first.price,
          Event.fill first.order_id (Nat.min (leavesQty order) (leavesQty first)) first.price]⟩) := by
  simp only [matchOne,
    if_neg (show ¬ u32sub order.quantity order.cum_qty = 0 from h), if_pos hc,
    fillOrder, leavesQty]

/-- The fields of the incoming order other than `cum_qty_` are never written
by `MatchOne`; `cum_qty_` grows by exactly the returned quantity (for a
well-formed order the `uint32_t` addition cannot wrap). -/
theorem matchOne_order_eq (comp : Int → Int → Bool) (order : Order)
    (other : List Order) (ids : List (Nat × Side)) (hwf : OrderWF order) :
    (matchOne comp order other ids).order =
      { order with cum_qty := order.cum_qty + (matchOne comp order other ids).traded } := by
  match other with
  | [] => simp [matchOne_nil]
  | first :: rest =>
    by_cases h : leavesQty order = 0
    · simp [matchOne_spent comp order first rest ids h]
    · by_cases hc : (comp order.price first.price = false ∧ order.type = OrderType.Limit)
          ∨ order.type = OrderType.Market
      · rw [matchOne_cross comp order first rest ids h hc]
        have hle : Nat.min (leavesQty order) (leavesQty first) ≤ order.quantity - order.cum_qty := by
          rw [← leavesQty_eq hwf]; exact Nat.min_le_left _ _
        have hnw : (order.cum_qty + Nat.min (leavesQty order) (leavesQty first)) % u32
            = order.cum_qty + Nat.min (leavesQty order) (leavesQty first) := by
          apply Nat.mod_eq_of_lt
          have := hwf.1
          have := hwf.2
          omega
        by_cases hrm : first.quantity = (first.cum_qty + Nat.min (leavesQty order) (leavesQty first)) % u32
        · simp [if_pos hrm, hnw]
        · simp [if_neg hrm, hnw]
      · simp [matchOne_nocross comp order first rest ids h hc]

theorem matchOne_traded_le (comp : Int → Int → Bool) (order : Order)
    (other : List Order) (ids : List (Nat × Side)) :
    (matchOne comp order other ids).traded ≤ leavesQty order := by
  match other with
  | [] => simp [matchOne_nil]
  | first :: rest =>
    by_cases h : leavesQty order = 0
    · simp [matchOne_spent comp order first rest ids h]
    · by_cases hc : (comp order.price first.price = false ∧ order.type = OrderType.Limit)
          ∨ order.type = OrderType.Market
      · rw [matchOne_cross comp order first rest ids h hc]
        by_cases hrm : first.quantity = (first.cum_qty + Nat.min (leavesQty order) (leavesQty first)) % u32
        · simp [if_pos hrm]
        · simp [if_neg hrm]
      · simp [matchOne_nocross comp order first rest ids h hc]

theorem matchOne_wf (comp : Int → Int → Bool) (order : Order)
    (other : List Order) (ids : List (Nat × Side)) (hwf : OrderWF order) :
    OrderWF (matchOne comp order other ids).order := by
  have h1 := matchOne_traded_le comp order other ids
  rw [leavesQty_eq hwf] at h1
  rw [matchOne_order_eq comp order other ids hwf]
  refine ⟨?_, ?_⟩
  · show order.cum_qty + _ ≤ order.quantity
    have h2 := hwf.1
    omega
  · show order.quantity < u32
    exact hwf.2

theorem matchOne_leaves_lt (comp : Int → Int → Bool) (order : Order)
    (other : List Order) (ids : List (Nat × Side)) (hwf : OrderWF order)
    (h : (matchOne comp order other ids).traded ≠ 0) :
    leavesQty (matchOne comp order other ids).order < leavesQty order := by
  have h1 := matchOne_traded_le comp order other ids
  have h2 := matchOne_order_eq comp order other ids hwf
  have h3 := matchOne_wf comp order other ids hwf
  rw [leavesQty_eq h3, leavesQty_eq hwf, h2]
  rw [h2] at h3
  simp only at h3 ⊢
  rw [leavesQty_eq hwf] at h1
  omega

theorem matchOne_events_fill (comp : Int → Int → Bool) (order : Order)
    (other : List Order) (ids : List (Nat × Side)) :
    ∀ e ∈ (matchOne comp order other ids).events, ∃ i q p, e = Event.fill i q p := by
  match other with
  | [] => simp [matchOne_nil]
  | first :: rest =>
    by_cases h : leavesQty order = 0
    · simp [matchOne_spent comp order first rest ids h]
    · by_cases hc : (comp order.price first.price = false ∧ order.type = OrderType.Limit)
          ∨ order.type = OrderType.Market
      · rw [matchOne_cross comp order first rest ids h hc]
        by_cases hrm : first.quantity = (first.cum_qty + Nat.min (leavesQty order) (leavesQty first)) % u32
        · rw [if_pos hrm]
          intro e he
          simp only [List.mem_cons, List.not_mem_nil, or_false] at he
          rcases he with he | he <;> exact ⟨_, _, _, he⟩
        · rw [if_neg hrm]
          intro e he
          simp only [List.mem_cons, List.not_mem_nil, or_false] at he
          rcases he with he | he <;> exact ⟨_, _, _, he⟩
      · simp [matchOne_nocross comp order first rest ids h hc]

theorem matchOne_ids_none (comp : Int → Int → Bool) (order : Order)
    (other : List Order) (ids : List (Nat × Side)) (id : Nat)
    (h : idsFind id ids = none) :
    idsFind id (matchOne comp order other ids).ids = none := by
  match other with
  | [] => simpa [matchOne_nil] using h
  | first :: rest =>
    by_cases hl : leavesQty order = 0
    · simpa [matchOne_spent comp order first rest ids hl] using h
    · by_cases hc : (comp order.price first.price = false ∧ order.type = OrderType.Limit)
          ∨ order.type = OrderType.Market
      · rw [matchOne_cross comp order first rest ids hl hc]
        by_cases hrm : first.quantity = (first.cum_qty + Nat.min (leavesQty order) (leavesQty first)) % u32
        · rw [if_pos hrm]
          exact idsFind_idsErase_of_none h
        · rw [if_neg hrm]
          exact h
      · simpa [matchOne_nocross comp order first rest ids hl hc] using h

theorem matchOne_other_suffix (comp : Int → Int → Bool) (order : Order)
    (other : List Order) (ids : List (Nat × Side)) :
    List.IsSuffix ((matchOne comp order other ids).other.map Order.order_id)
      (other.map Order.order_id) := by
  match other with
  | [] => simp [matchOne_nil]
  | first :: rest =>
    by_cases hl : leavesQty order = 0
    · simp [matchOne_spent comp order first rest ids hl]
    · by_cases hc : (comp order.price first.price = false ∧ order.type = OrderType.Limit)
          ∨ order.type = OrderType.Market
      · rw [matchOne_cross comp order first rest ids hl hc]
        by_cases hrm : first.quantity = (first.cum_qty + Nat.min (leavesQty order) (leavesQty first)) % u32
        · rw [if_pos hrm]
          exact ⟨[first.order_id], rfl⟩
        · rw [if_neg hrm]
          exact ⟨[], rfl⟩
      · simp [matchOne_nocross comp order first rest ids hl hc]

/-! ### Facts about the matching loop -/

theorem matchLoop_order_fields (comp : Int → Int → Bool) :
    ∀ (fuel : Nat) (order : Order) (other : List Order) (ids : List (Nat × Side)),
      (matchLoop fuel comp order other ids).order.order_id = order.order_id ∧
      (matchLoop fuel comp order other ids).order.price = order.price ∧
      (matchLoop fuel comp order other ids).order.quantity = order.quantity ∧
      (matchLoop fuel comp order other ids).order.side = order.side ∧
      (matchLoop fuel comp order other ids).order.type = order.type := by
  intro fuel
  induction fuel with
  | zero => intro order other ids; simp [matchLoop]
  | succ fuel ih =>
    intro order other ids
    have hfields : ((matchOne comp order other ids).order.order_id = order.order_id ∧
        (matchOne comp order other ids).order.price = order.price ∧
        (matchOne comp order other ids).order.quantity = order.quantity ∧
        (matchOne comp order other ids).order.side = order.side ∧
        (matchOne comp order other ids).order.type = order.type) := by
      match other with
      | [] => simp [matchOne_nil]
      | first :: rest =>
        by_cases hl : leavesQty order = 0
        · simp [matchOne_spent comp order first rest ids hl]
        · by_cases hc : (comp order.price first.price = false ∧ order.type = OrderType.Limit)
              ∨ order.type = OrderType.Market
          · rw [matchOne_cross comp order first rest ids hl hc]
            by_cases hrm : first.quantity = (first.cum_qty + Nat.min (leavesQty order) (leavesQty first)) % u32
            · simp [if_pos hrm]
            · simp [if_neg hrm]
          · simp [matchOne_nocross comp order first rest ids hl hc]
    simp only [matchLoop]
    by_cases ht : (matchOne comp order other ids).traded = 0
    · simpa [if_pos ht] using hfields
    · have ih2 := ih (matchOne comp order other ids).order
        (matchOne comp order other ids).other (matchOne comp order other ids).ids
      simp only [if_neg ht]
      exact ⟨ih2.1.trans hfields.1, (ih2.2.1).trans hfields.2.1,
        (ih2.2.2.1).trans hfields.2.2.1, (ih2.2.2.2.1).trans hfields.2.2.2.1,
        (ih2.2.2.2.2).trans hfields.2.2.2.2⟩

theorem matchLoop_events_fill (comp : Int → Int → Bool) :
    ∀ (fuel : Nat) (order : Order) (other : List Order) (ids : List (Nat × Side)),
      ∀ e ∈ (matchLoop fuel comp order other ids).events, ∃ i q p, e = Event.fill i q p := by
  intro fuel
  induction fuel with
  | zero => intro order other ids; simp [matchLoop]
  | succ fuel ih =>
    intro order other ids
    simp only [matchLoop]
    by_cases ht : (matchOne comp order other ids).traded = 0
    · simpa [if_pos ht] using matchOne_events_fill comp order other ids
    · simp only [if_neg ht]
      intro e he
      rw [List.mem_append] at he
      rcases he with he | he
      · exact matchOne_events_fill comp order other ids e he
      · exact ih _ _ _ e he

theorem matchLoop_ids_none (comp : Int → Int → Bool) :
    ∀ (fuel : Nat) (order : Order) (other : List Order) (ids : List (Nat × Side)) (id : Nat),
      idsFind id ids = none →
      idsFind id (matchLoop fuel comp order other ids).ids = none := by
  intro fuel
  induction fuel with
  | zero => intro order other ids id h; simpa [matchLoop] using h
  | succ fuel ih =>
    intro order other ids id h
    simp only [matchLoop]
    by_cases ht : (matchOne comp order other ids).traded = 0
    · simpa [if_pos ht] using matchOne_ids_none comp order other ids id h
    · simp only [if_neg ht]
      exact ih _ _ _ id (matchOne_ids_none comp order other ids id h)

theorem matchLoop_other_suffix (comp : Int → Int → Bool) :
    ∀ (fuel : Nat) (order : Order) (other : List Order) (ids : List (Nat × Side)),
      List.IsSuffix ((matchLoop fuel comp order other ids).other.map Order.order_id)
        (other.map Order.order_id) := by
  intro fuel
  induction fuel with
  | zero => intro order other ids; simp [matchLoop]
  | succ fuel ih =>
    intro order other ids
    simp only [matchLoop]
    by_cases ht : (matchOne comp order other ids).traded = 0
    · simpa [if_pos ht] using matchOne_other_suffix comp order other ids
    · simp only [if_neg ht]
      exact (ih _ _ _).trans (matchOne_other_suffix comp order other ids)

/-- Fuel-independence of the matching loop: any fuel strictly above the
remaining quantity of a well-formed incoming order gives the same result,
because every nonzero iteration strictly decreases that quantity. -/
theorem matchLoop_fuel_congr (comp : Int → Int → Bool) :
    ∀ (n : Nat) (order : Order) (other : List Order) (ids : List (Nat × Side)),
      OrderWF order → leavesQty order ≤ n →
      ∀ f1 f2 : Nat, leavesQty order < f1 → leavesQty order < f2 →
        matchLoop f1 comp order other ids = matchLoop f2 comp order other ids := by
  intro n
  induction n with
  | zero =>
    intro order other ids hwf hn f1 f2 h1 h2
    have hz : leavesQty order = 0 := Nat.le_zero.mp hn
    obtain ⟨a, rfl⟩ : ∃ a, f1 = a + 1 := ⟨f1 - 1, by omega⟩
    obtain ⟨b, rfl⟩ : ∃ b, f2 = b + 1 := ⟨f2 - 1, by omega⟩
    have ht : (matchOne comp order other ids).traded = 0 := by
      have := matchOne_traded_le comp order other ids
      omega
    simp only [matchLoop, if_pos ht]
  | succ n ih =>
    intro order other ids hwf hn f1 f2 h1 h2
    obtain ⟨a, rfl⟩ : ∃ a, f1 = a + 1 := ⟨f1 - 1, by omega⟩
    obtain ⟨b, rfl⟩ : ∃ b, f2 = b + 1 := ⟨f2 - 1, by omega⟩
    simp only [matchLoop]
    by_cases ht : (matchOne comp order other ids).traded = 0
    · simp [if_pos ht]
    · simp only [if_neg ht]
      have hlt := matchOne_leaves_lt comp order other ids hwf ht
      have hwf2 := matchOne_wf comp order other ids hwf
      have heq := ih (matchOne comp order other ids).order
        (matchOne comp order other ids).other (matchOne comp order other ids).ids
        hwf2 (by omega) a b (by omega) (by omega)
      rw [heq]

/-! ### Claim theorems -/

/-- C9: submitting an order whose `order_id` is already present in the
identifier index emits exactly one `Reject(order_id, IdAlreadyExists)` and
performs no other processing: the engine state — book, index, and the
`cum_qty` of every resting order — is returned exactly as it was, and the
rejected order is never inserted or indexed. -/
theorem duplicate_id_reject_pure (st : EngineState) (order : Order)
    (h : (idsFind order.order_id st.ids).isSome = true) :
    submitNewOrder st order
      = (st, [Event.reject order.order_id RejectMsg.IdAlreadyExists]) := by
  simp [submitNewOrder, h]

theorem duplicate_id_reject_pure_witness :
    (idsFind 1 [(1, Side.Buy)]).isSome = true ∧
    submitNewOrder ⟨[⟨1, 5, 3, 0, Side.Buy, OrderType.Limit⟩], [], [(1, Side.Buy)]⟩
        ⟨1, 6, 2, 0, Side.Sell, OrderType.Limit⟩
      = (⟨[⟨1, 5, 3, 0, Side.Buy, OrderType.Limit⟩], [], [(1, Side.Buy)]⟩,
         [Event.reject 1 RejectMsg.IdAlreadyExists]) :=
  ⟨by decide, duplicate_id_reject_pure _ _ (by decide)⟩

/-- C10: for a well-formed incoming order the matching loop performs only
finitely many iterations: every nonzero match attempt trades a strictly
positive quantity and strictly decreases the remaining quantity of the
incoming order, a zero attempt ends the loop immediately, and consequently
any fuel above the remaining quantity yields the same loop result — the
fuel `order.quantity + 1` used in `processOrder` is exact. -/
theorem matching_loop_finite (comp : Int → Int → Bool) (order : Order)
    (other : List Order) (ids : List (Nat × Side)) (hwf : OrderWF order) :
    ((matchOne comp order other ids).traded ≠ 0 →
       0 < (matchOne comp order other ids).traded ∧
       leavesQty (matchOne comp order other ids).order < leavesQty order) ∧
    ((matchOne comp order other ids).traded = 0 → ∀ fuel : Nat,
       matchLoop (fuel + 1) comp order other ids =
         ⟨(matchOne comp order other ids).order, (matchOne comp order other ids).other,
          (matchOne comp order other ids).ids, (matchOne comp order other ids).events⟩) ∧
    (∀ fuel : Nat, leavesQty order < fuel →
       matchLoop fuel comp order other ids =
         matchLoop (leavesQty order + 1) comp order other ids) := by
  refine ⟨?_, ?_, ?_⟩
  · intro h
    exact ⟨Nat.pos_of_ne_zero h, matchOne_leaves_lt comp order other ids hwf h⟩
  · intro h fuel
    simp [matchLoop, if_pos h]
  · intro fuel hf
    exact matchLoop_fuel_congr comp (leavesQty order) order other ids hwf le_rfl
      fuel _ hf (Nat.lt_succ_self _)

theorem matching_loop_finite_witness :
    OrderWF ⟨7, 5, 3, 0, Side.Buy, OrderType.Limit⟩ ∧
    matchLoop 9 sellBetter ⟨7, 5, 3, 0, Side.Buy, OrderType.Limit⟩ [] []
      = matchLoop (leavesQty ⟨7, 5, 3, 0, Side.Buy, OrderType.Limit⟩ + 1) sellBetter
          ⟨7, 5, 3, 0, Side.Buy, OrderType.Limit⟩ [] [] :=
  ⟨by decide, (matching_loop_finite sellBetter _ [] [] (by decide)).2.2 9 (by decide)⟩

/-- Bundled conservation facts about one `MatchOne` call on well-formed
orders (shared helper). -/
theorem matchOne_conservation (comp : Int → Int → Bool)
    (order first : Order) (rest : List Order) (ids : List (Nat × Side))
    (hwf : OrderWF order) (hfwf : OrderWF first) :
    (matchOne comp order (first :: rest) ids).order.cum_qty
        = order.cum_qty + (matchOne comp order (first :: rest) ids).traded ∧
    ((matchOne comp order (first :: rest) ids).other = rest ∧
        first.cum_qty + (matchOne comp order (first :: rest) ids).traded = first.quantity
      ∨ (matchOne comp order (first :: rest) ids).other =
          ({ first with cum_qty :=
              first.cum_qty + (matchOne comp order (first :: rest) ids).traded }) :: rest) ∧
    (matchOne comp order (first :: rest) ids).order.cum_qty ≤ order.quantity ∧
    first.cum_qty + (matchOne comp order (first :: rest) ids).traded ≤ first.quantity ∧
    fillAssert order (matchOne comp order (first :: rest) ids).traded ∧
    fillAssert first (matchOne comp order (first :: rest) ids).traded ∧
    leavesQty order = order.quantity - order.cum_qty ∧
    leavesQty first = first.quantity - first.cum_qty := by
  have hlo := leavesQty_eq hwf
  have hlf := leavesQty_eq hfwf
  have horder := matchOne_order_eq comp order (first :: rest) ids hwf
  have hle := matchOne_traded_le comp order (first :: rest) ids
  refine ⟨by rw [horder], ?_, ?_, ?_, ?_, ?_, hlo, hlf⟩
  · by_cases hl : leavesQty order = 0
    · rw [matchOne_spent comp order first rest ids hl]
      right
      simp
    · by_cases hc : (comp order.price first.price = false ∧ order.type = OrderType.Limit)
          ∨ order.type = OrderType.Market
      · rw [matchOne_cross comp order first rest ids hl hc]
        have hm : Nat.min (leavesQty order) (leavesQty first) ≤ first.quantity - first.cum_qty := by
          rw [← hlf]; exact Nat.min_le_right _ _
        have hnw : (first.cum_qty + Nat.min (leavesQty order) (leavesQty first)) % u32
            = first.cum_qty + Nat.min (leavesQty order) (leavesQty first) := by
          apply Nat.mod_eq_of_lt
          have := hfwf.1
          have := hfwf.2
          omega
        by_cases hrm : first.quantity
            = (first.cum_qty + Nat.min (leavesQty order) (leavesQty first)) % u32
        · rw [if_pos hrm]
          left
          exact ⟨rfl, by rw [hnw] at hrm; simpa using hrm.symm⟩
        · rw [if_neg hrm]
          right
          simp [hnw]
      · rw [matchOne_nocross comp order first rest ids hl hc]
        right
        simp
  · rw [horder]
    show order.cum_qty + _ ≤ order.quantity
    have := hwf.1
    rw [hlo] at hle
    omega
  · have hmf : (matchOne comp order (first :: rest) ids).traded
        ≤ first.quantity - first.cum_qty := by
      by_cases hl : leavesQty order = 0
      · rw [matchOne_spent comp order first rest ids hl]
        simp
      · by_cases hc : (comp order.price first.price = false ∧ order.type = OrderType.Limit)
            ∨ order.type = OrderType.Market
        · rw [matchOne_cross comp order first rest ids hl hc]
          by_cases hrm : first.quantity
              = (first.cum_qty + Nat.min (leavesQty order) (leavesQty first)) % u32
          · rw [if_pos hrm]
            rw [← hlf]
            simpa using Nat.min_le_right _ _
          · rw [if_neg hrm]
            rw [← hlf]
            simpa using Nat.min_le_right _ _
        · rw [matchOne_nocross comp order first rest ids hl hc]
          simp
    have := hfwf.1
    omega
  · show (matchOne comp order (first :: rest) ids).traded ≤ u32sub order.quantity order.cum_qty
    exact hle
  · show (matchOne comp order (first :: rest) ids).traded ≤ u32sub first.quantity first.cum_qty
    have hmf : (matchOne comp order (first :: rest) ids).traded
        ≤ first.quantity - first.cum_qty := by
      by_cases hl : leavesQty order = 0
      · rw [matchOne_spent comp order first rest ids hl]
        simp
      · by_cases hc : (comp order.price first.price = false ∧ order.type = OrderType.Limit)
            ∨ order.type = OrderType.Market
        · rw [matchOne_cross comp order first rest ids hl hc]
          by_cases hrm : first.quantity
              = (first.cum_qty + Nat.min (leavesQty order) (leavesQty first)) % u32
          · rw [if_pos hrm]
            rw [← hlf]
            simpa using Nat.min_le_right _ _
          · rw [if_neg hrm]
            rw [← hlf]
            simpa using Nat.min_le_right _ _
        · rw [matchOne_nocross comp order first rest ids hl hc]
          simp
    show _ ≤ leavesQty first
    omega

/-- C8: in any single match attempt on well-formed orders, the incoming
order gains exactly the traded quantity, the resting order gains exactly
the traded quantity (so the summed `cum_qty` over the touched orders grows
by twice the traded quantity), neither `cum_qty` exceeds its `quantity`,
both `Fill` assertions hold, and the unsigned computation
`quantity_ - cum_qty_` does not wrap. -/
theorem match_quantity_conservation (comp : Int → Int → Bool)
    (order first : Order) (rest : List Order) (ids : List (Nat × Side))
    (hwf : OrderWF order) (hfwf : OrderWF first) :
    (matchOne comp order (first :: rest) ids).order.cum_qty
        = order.cum_qty + (matchOne comp order (first :: rest) ids).traded ∧
    ((matchOne comp order (first :: rest) ids).other = rest ∧
        first.cum_qty + (matchOne comp order (first :: rest) ids).traded = first.quantity
      ∨ (matchOne comp order (first :: rest) ids).other =
          ({ first with cum_qty :=
              first.cum_qty + (matchOne comp order (first :: rest) ids).traded }) :: rest) ∧
    (matchOne comp order (first :: rest) ids).order.cum_qty ≤ order.quantity ∧
    first.cum_qty + (matchOne comp order (first :: rest) ids).traded ≤ first.quantity ∧
    fillAssert order (matchOne comp order (first :: rest) ids).traded ∧
    fillAssert first (matchOne comp order (first :: rest) ids).traded ∧
    leavesQty order = order.quantity - order.cum_qty ∧
    leavesQty first = first.quantity - first.cum_qty :=
  matchOne_conservation comp order first rest ids hwf hfwf

theorem match_quantity_conservation_witness :
    OrderWF ⟨2, 100, 10, 0, Side.Buy, OrderType.Limit⟩ ∧
    OrderWF ⟨1, 100, 4, 0, Side.Sell, OrderType.Limit⟩ ∧
    (matchOne sellBetter ⟨2, 100, 10, 0, Side.Buy, OrderType.Limit⟩
        [⟨1, 100, 4, 0, Side.Sell, OrderType.Limit⟩] []).order.cum_qty
      = 0 + (matchOne sellBetter ⟨2, 100, 10, 0, Side.Buy, OrderType.Limit⟩
        [⟨1, 100, 4, 0, Side.Sell, OrderType.Limit⟩] []).traded :=
  ⟨by decide, by decide,
   (match_quantity_conservation sellBetter _ _ [] [] (by decide) (by decide)).1⟩

/-- C1 (counterexample to the claimed resting-first ordering): with a
resting Sell limit (id 1, qty 10, price 100) fully matched by an incoming
Buy limit (id 2, qty 10, price 100), the engine emits the fill of the
incoming order id 2 first and the fill of the resting order id 1 second —
not the resting fill first as the claim states. -/
theorem fill_emission_order_counterexample :
    (submitNewOrder (submitNewOrder EngineState.empty
        ⟨1, 100, 10, 0, Side.Sell, OrderType.Limit⟩).1
        ⟨2, 100, 10, 0, Side.Buy, OrderType.Limit⟩).2
      = [Event.fill 2 10 100, Event.fill 1 10 100] ∧
    ([Event.fill 2 10 100, Event.fill 1 10 100]
      ≠ [Event.fill 1 10 100, Event.fill 2 10 100]) := by
  constructor
  · rfl
  · decide

/-- The two Fill events of a nonzero match attempt (shared helper):
incoming fill first, resting fill second, both at the resting price. -/
theorem matchOne_fill_pair (comp : Int → Int → Bool)
    (order first : Order) (rest : List Order) (ids : List (Nat × Side))
    (h : (matchOne comp order (first :: rest) ids).traded ≠ 0) :
    (matchOne comp order (first :: rest) ids).events =
      [Event.fill order.order_id (matchOne comp order (first :: rest) ids).traded first.price,
       Event.fill first.order_id (matchOne comp order (first :: rest) ids).traded first.price] := by
  by_cases hl : leavesQty order = 0
  · rw [matchOne_spent comp order first rest ids hl] at h
    exact absurd rfl h
  · by_cases hc : (comp order.price first.price = false ∧ order.type = OrderType.Limit)
        ∨ order.type = OrderType.Market
    · rw [matchOne_cross comp order first rest ids hl hc]
      by_cases hrm : first.quantity
          = (first.cum_qty + Nat.min (leavesQty order) (leavesQty first)) % u32
      · rw [if_pos hrm]
      · rw [if_neg hrm]
    · rw [matchOne_nocross comp order first rest ids hl hc] at h
      exact absurd rfl h

/-- C1 (amended): for every successful match the engine emits exactly two
Fill events — the incoming (aggressor) order fill first, then the resting
order fill — both carrying the traded quantity and the price of the
resting order; this holds for every match attempt of the matching loop. -/
theorem fill_emission_order_per_match (comp : Int → Int → Bool)
    (order first : Order) (rest : List Order) (ids : List (Nat × Side))
    (h : (matchOne comp order (first :: rest) ids).traded ≠ 0) :
    (matchOne comp order (first :: rest) ids).events =
      [Event.fill order.order_id (matchOne comp order (first :: rest) ids).traded first.price,
       Event.fill first.order_id (matchOne comp order (first :: rest) ids).traded first.price] :=
  matchOne_fill_pair comp order first rest ids h

theorem fill_emission_order_per_match_witness :
    (matchOne sellBetter ⟨2, 100, 10, 0, Side.Buy, OrderType.Limit⟩
        [⟨1, 100, 4, 0, Side.Sell, OrderType.Limit⟩] []).traded ≠ 0 ∧
    (matchOne sellBetter ⟨2, 100, 10, 0, Side.Buy, OrderType.Limit⟩
        [⟨1, 100, 4, 0, Side.Sell, OrderType.Limit⟩] []).events =
      [Event.fill 2 (matchOne sellBetter ⟨2, 100, 10, 0, Side.Buy, OrderType.Limit⟩
          [⟨1, 100, 4, 0, Side.Sell, OrderType.Limit⟩] []).traded 100,
       Event.fill 1 (matchOne sellBetter ⟨2, 100, 10, 0, Side.Buy, OrderType.Limit⟩
          [⟨1, 100, 4, 0, Side.Sell, OrderType.Limit⟩] []).traded 100] :=
  ⟨by decide, fill_emission_order_per_match sellBetter _ _ [] [] (by decide)⟩

/-- C2 (code bug witnessed): with a single resting Sell limit (id 1) found
in the identifier index, `CancelExistingOrder(1)` takes the found branch
but — the source having only a `Side::Buy` branch — removes nothing from
the ask book or the index and emits no event at all, instead of removing
the order and emitting `Cancel(1)`. -/
theorem cancel_sell_resting_order_noop :
    idsFind 1 ((submitNewOrder EngineState.empty
        ⟨1, 100, 10, 0, Side.Sell, OrderType.Limit⟩).1).ids = some Side.Sell ∧
    cancelExistingOrder (submitNewOrder EngineState.empty
        ⟨1, 100, 10, 0, Side.Sell, OrderType.Limit⟩).1 1
      = ((submitNewOrder EngineState.empty
          ⟨1, 100, 10, 0, Side.Sell, OrderType.Limit⟩).1, []) ∧
    ((submitNewOrder EngineState.empty
        ⟨1, 100, 10, 0, Side.Sell, OrderType.Limit⟩).1).asks
      = [⟨1, 100, 10, 0, Side.Sell, OrderType.Limit⟩] := by
  refine ⟨rfl, rfl, rfl⟩

/-- C3 (code bug witnessed): after a resting Sell limit (id 1) is fully
consumed by an incoming Buy limit (id 2), both books are empty yet id 1 is
still present in the identifier index — `MatchOne` erases
`order.order_id_` (the incoming id 2, a no-op) instead of the id of the
removed resting order. -/
theorem fully_filled_resting_id_stays_in_index :
    ((submitNewOrder (submitNewOrder EngineState.empty
        ⟨1, 100, 10, 0, Side.Sell, OrderType.Limit⟩).1
        ⟨2, 100, 10, 0, Side.Buy, OrderType.Limit⟩).1).bids = [] ∧
    ((submitNewOrder (submitNewOrder EngineState.empty
        ⟨1, 100, 10, 0, Side.Sell, OrderType.Limit⟩).1
        ⟨2, 100, 10, 0, Side.Buy, OrderType.Limit⟩).1).asks = [] ∧
    idsFind 1 ((submitNewOrder (submitNewOrder EngineState.empty
        ⟨1, 100, 10, 0, Side.Sell, OrderType.Limit⟩).1
        ⟨2, 100, 10, 0, Side.Buy, OrderType.Limit⟩).1).ids = some Side.Sell := by
  refine ⟨rfl, rfl, rfl⟩

/-- C7 (code bug witnessed): cancelling the id of an order that was fully
filled earlier does not produce `Reject(id, IdNotFound)`: the stale index
entry left by the erase bug in `MatchOne` makes the lookup succeed, and
the call returns with no event at all (in the C++ it then dereferences a
dangling iterator). -/
theorem cancel_fully_filled_id_not_rejected :
    idsFind 1 ((submitNewOrder (submitNewOrder EngineState.empty
        ⟨1, 100, 10, 0, Side.Sell, OrderType.Limit⟩).1
        ⟨2, 100, 10, 0, Side.Buy, OrderType.Limit⟩).1).ids = some Side.Sell ∧
    (cancelExistingOrder (submitNewOrder (submitNewOrder EngineState.empty
        ⟨1, 100, 10, 0, Side.Sell, OrderType.Limit⟩).1
        ⟨2, 100, 10, 0, Side.Buy, OrderType.Limit⟩).1 1).2 = [] ∧
    (cancelExistingOrder (submitNewOrder (submitNewOrder EngineState.empty
        ⟨1, 100, 10, 0, Side.Sell, OrderType.Limit⟩).1
        ⟨2, 100, 10, 0, Side.Buy, OrderType.Limit⟩).1 1).2
      ≠ [Event.reject 1 RejectMsg.IdNotFound] := by
  refine ⟨rfl, rfl, ?_⟩
  decide

/-- C5: a single match attempt fails — trades nothing and changes nothing —
iff the opposite side is empty, or the incoming order has no remaining
quantity, or it is a Limit order whose price does not cross the resting
best under the comparator of that side (so a Market order always crosses a
non-empty opposite side); when it trades, the traded quantity is
min(incoming leaves, resting leaves), the trade price is the price of the
resting order, and both participants gain exactly the traded quantity.
The final conjuncts spell the crossing predicate out per side: with the
ask-book comparator `sellBetter` a Buy limit fails to cross exactly when
the resting ask is above its price, and with the bid-book comparator
`buyBetter` a Sell limit fails to cross exactly when the resting bid is
below its price. -/
theorem match_attempt_characterization (comp : Int → Int → Bool)
    (order : Order) (other : List Order) (ids : List (Nat × Side))
    (hwf : OrderWF order)
    (hhead : ∀ first rest, other = first :: rest → OrderWF first ∧ 0 < leavesQty first) :
    ((matchOne comp order other ids = ⟨0, order, other, ids, []⟩) ↔
      (other = [] ∨ leavesQty order = 0 ∨
       ∃ first rest, other = first :: rest ∧ order.type = OrderType.Limit ∧
         comp order.price first.price = true)) ∧
    (((matchOne comp order other ids).traded = 0) ↔
      (other = [] ∨ leavesQty order = 0 ∨
       ∃ first rest, other = first :: rest ∧ order.type = OrderType.Limit ∧
         comp order.price first.price = true)) ∧
    (∀ first rest, other = first :: rest →
       (matchOne comp order other ids).traded ≠ 0 →
       (matchOne comp order other ids).traded
           = Nat.min (leavesQty order) (leavesQty first) ∧
       (matchOne comp order other ids).order.cum_qty
           = order.cum_qty + (matchOne comp order other ids).traded ∧
       ((matchOne comp order other ids).other = rest ∧
            first.cum_qty + (matchOne comp order other ids).traded = first.quantity
         ∨ (matchOne comp order other ids).other =
             ({ first with cum_qty :=
                 first.cum_qty + (matchOne comp order other ids).traded }) :: rest) ∧
       (matchOne comp order other ids).events =
         [Event.fill order.order_id (matchOne comp order other ids).traded first.price,
          Event.fill first.order_id (matchOne comp order other ids).traded first.price]) ∧
    (∀ a b : Int, sellBetter a b = true ↔ a < b) ∧
    (∀ a b : Int, buyBetter a b = true ↔ b < a) := by
  have hfail : ∀ first rest, other = first :: rest →
      ((matchOne comp order other ids = ⟨0, order, other, ids, []⟩ ∧
        (matchOne comp order other ids).traded = 0) ↔
       (leavesQty order = 0 ∨
        (order.type = OrderType.Limit ∧ comp order.price first.price = true))) := by
    intro first rest hother
    subst hother
    by_cases hl : leavesQty order = 0
    · rw [matchOne_spent comp order first rest ids hl]
      simp [hl]
    · by_cases hc : (comp order.price first.price = false ∧ order.type = OrderType.Limit)
          ∨ order.type = OrderType.Market
      · rw [matchOne_cross comp order first rest ids hl hc]
        have hm : 0 < Nat.min (leavesQty order) (leavesQty first) := by
          have h1 := (hhead first rest rfl).2
          have h2 : 0 < leavesQty order := Nat.pos_of_ne_zero hl
          exact lt_min h2 h1
        constructor
        · intro hEq
          exfalso
          by_cases hrm : first.quantity
              = (first.cum_qty + Nat.min (leavesQty order) (leavesQty first)) % u32
          · rw [if_pos hrm] at hEq
            have := congrArg MatchResult.traded hEq.1
            simp only at this
            omega
          · rw [if_neg hrm] at hEq
            have := congrArg MatchResult.traded hEq.1
            simp only at this
            omega
        · intro hcond
          exfalso
          rcases hcond with hcond | hcond
          · exact hl hcond
          · rcases hc with ⟨hcf, _⟩ | hM
            · rw [hcond.2] at hcf
              exact Bool.noConfusion hcf
            · rw [hcond.1] at hM
              exact OrderType.noConfusion hM
      · rw [matchOne_nocross comp order first rest ids hl hc]
        have hR : order.type = OrderType.Limit ∧ comp order.price first.price = true := by
          cases htype : order.type with
          | Market => exact absurd (Or.inr htype) hc
          | Limit =>
            refine ⟨rfl, ?_⟩
            cases hcf : comp order.price first.price with
            | true => rfl
            | false => exact absurd (Or.inl ⟨hcf, htype⟩) hc
        constructor
        · intro _
          exact Or.inr hR
        · intro _
          exact ⟨rfl, rfl⟩
  refine ⟨?_, ?_, ?_, ?_, ?_⟩
  · match other with
    | [] => simp [matchOne_nil]
    | first :: rest =>
      rw [show ((first :: rest : List Order) = [] ∨ leavesQty order = 0 ∨
          ∃ f r, first :: rest = f :: r ∧ order.type = OrderType.Limit ∧
            comp order.price f.price = true) ↔
          (leavesQty order = 0 ∨
           (order.type = OrderType.Limit ∧ comp order.price first.price = true)) from by
        constructor
        · rintro (hnil | hl | ⟨f, r, hfr, hL, hcf⟩)
          · exact absurd hnil (List.cons_ne_nil first rest)
          · exact Or.inl hl
          · cases hfr
            exact Or.inr ⟨hL, hcf⟩
        · rintro (hl | ⟨hL, hcf⟩)
          · exact Or.inr (Or.inl hl)
          · exact Or.inr (Or.inr ⟨first, rest, rfl, hL, hcf⟩)]
      constructor
      · intro hEq
        exact ((hfail first rest rfl).mp ⟨hEq, by rw [hEq]⟩)
      · intro hcond
        rcases hcond with hl | ⟨hL, hcf⟩
        · exact matchOne_spent comp order first rest ids hl
        · by_cases hl : leavesQty order = 0
          · exact matchOne_spent comp order first rest ids hl
          · refine matchOne_nocross comp order first rest ids hl ?_
            rintro (⟨hcf2, _⟩ | hM)
            · rw [hcf] at hcf2
              exact Bool.noConfusion hcf2
            · rw [hL] at hM
              exact OrderType.noConfusion hM
  · match other with
    | [] => simp [matchOne_nil]
    | first :: rest =>
      constructor
      · intro ht
        by_cases hl : leavesQty order = 0
        · exact Or.inr (Or.inl hl)
        · by_cases hc : (comp order.price first.price = false ∧ order.type = OrderType.Limit)
              ∨ order.type = OrderType.Market
          · exfalso
            rw [matchOne_cross comp order first rest ids hl hc] at ht
            have hm : 0 < Nat.min (leavesQty order) (leavesQty first) :=
              lt_min (Nat.pos_of_ne_zero hl) (hhead first rest rfl).2
            by_cases hrm : first.quantity
                = (first.cum_qty + Nat.min (leavesQty order) (leavesQty first)) % u32
            · rw [if_pos hrm] at ht
              simp only at ht
              omega
            · rw [if_neg hrm] at ht
              simp only at ht
              omega
          · refine Or.inr (Or.inr ⟨first, rest, rfl, ?_, ?_⟩)
            · rcases htype : order.type with hM | hL
              · exact absurd (Or.inr htype) hc
              · rfl
            · by_cases hcf : comp order.price first.price = true
              · exact hcf
              · rcases htype : order.type with hM | hL
                · exact absurd (Or.inr htype) hc
                · exact absurd (Or.inl ⟨by simpa using hcf, htype⟩) hc
      · intro hcond
        have : matchOne comp order (first :: rest) ids = ⟨0, order, first :: rest, ids, []⟩ := by
          rcases hcond with hnil | hl | ⟨f, r, hfr, hL, hcf⟩
          · exact absurd hnil (List.cons_ne_nil first rest)
          · exact matchOne_spent comp order first rest ids hl
          · cases hfr
            by_cases hl : leavesQty order = 0
            · exact matchOne_spent comp order first rest ids hl
            · refine matchOne_nocross comp order first rest ids hl ?_
              rintro (⟨hcf2, _⟩ | hM)
              · rw [hcf] at hcf2
                exact Bool.noConfusion hcf2
              · rw [hL] at hM
                exact OrderType.noConfusion hM
        rw [this]
  · intro first rest hother ht
    subst hother
    have hcons := matchOne_conservation comp order first rest ids hwf
      (hhead first rest rfl).1
    refine ⟨?_, hcons.1, hcons.2.1, ?_⟩
    · by_cases hl : leavesQty order = 0
      · rw [matchOne_spent comp order first rest ids hl] at ht
        exact absurd rfl ht
      · by_cases hc : (comp order.price first.price = false ∧ order.type = OrderType.Limit)
            ∨ order.type = OrderType.Market
        · rw [matchOne_cross comp order first rest ids hl hc]
          by_cases hrm : first.quantity
              = (first.cum_qty + Nat.min (leavesQty order) (leavesQty first)) % u32
          · rw [if_pos hrm]
          · rw [if_neg hrm]
        · rw [matchOne_nocross comp order first rest ids hl hc] at ht
          exact absurd rfl ht
    · exact matchOne_fill_pair comp order first rest ids ht
  · intro a b
    simp [sellBetter]
  · intro a b
    simp [buyBetter]

theorem match_attempt_characterization_witness :
    (matchOne sellBetter ⟨2, 100, 10, 0, Side.Buy, OrderType.Limit⟩
        [⟨1, 99, 5, 0, Side.Sell, OrderType.Limit⟩] []).traded
      = Nat.min (leavesQty ⟨2, 100, 10, 0, Side.Buy, OrderType.Limit⟩)
          (leavesQty ⟨1, 99, 5, 0, Side.Sell, OrderType.Limit⟩) :=
  ((match_attempt_characterization sellBetter ⟨2, 100, 10, 0, Side.Buy, OrderType.Limit⟩
      [⟨1, 99, 5, 0, Side.Sell, OrderType.Limit⟩] [] (by decide)
      (by
        intro first rest h
        cases h
        exact ⟨by decide, by decide⟩)).2.2.1
    _ _ rfl (by decide)).1

/-- `ProcessOrder` on a Market order: the liquidity guard on an empty
opposite side, otherwise the loop followed by the Market disposition
(cancel of the remainder, or nothing when fully filled). -/
theorem processOrder_market (ownComp otherComp : Int → Int → Bool)
    (order : Order) (own other : List Order) (ids : List (Nat × Side))
    (hm : order.type = OrderType.Market) :
    (other = [] → processOrder ownComp otherComp order own other ids
        = ⟨own, other, ids, [Event.reject order.order_id RejectMsg.NotEnoughLiquidity]⟩) ∧
    (other ≠ [] →
       processOrder ownComp otherComp order own other ids =
         (if (matchLoop (order.quantity + 1) otherComp order other ids).order.cum_qty
             ≠ (matchLoop (order.quantity + 1) otherComp order other ids).order.quantity then
            ⟨own, (matchLoop (order.quantity + 1) otherComp order other ids).other,
             (matchLoop (order.quantity + 1) otherComp order other ids).ids,
             (matchLoop (order.quantity + 1) otherComp order other ids).events
               ++ [Event.cancel (matchLoop (order.quantity + 1) otherComp order other ids).order.order_id]⟩
          else
            ⟨own, (matchLoop (order.quantity + 1) otherComp order other ids).other,
             (matchLoop (order.quantity + 1) otherComp order other ids).ids,
             (matchLoop (order.quantity + 1) otherComp order other ids).events⟩)) := by
  constructor
  · intro hne
    simp only [processOrder, if_pos (And.intro hm hne)]
  · intro hne
    have hguard : ¬ (order.type = OrderType.Market ∧ other = []) := by
      rintro ⟨_, h2⟩
      exact hne h2
    have htype : (matchLoop (order.quantity + 1) otherComp order other ids).order.type
        = OrderType.Market :=
      ((matchLoop_order_fields otherComp (order.quantity + 1) order other ids).2.2.2.2).trans hm
    have hNotLimit : ¬ (matchLoop (order.quantity + 1) otherComp order other ids).order.type
        = OrderType.Limit := by
      rw [htype]
      exact fun h => OrderType.noConfusion h
    by_cases hcum : (matchLoop (order.quantity + 1) otherComp order other ids).order.cum_qty
        = (matchLoop (order.quantity + 1) otherComp order other ids).order.quantity
    · simp only [processOrder, if_neg hguard, if_neg (not_not_intro hcum)]
    · simp only [processOrder, if_neg hguard, if_pos hcum, if_neg hNotLimit]

/-- C6: a submitted Market order whose id is fresh (not indexed and not in
either book): if the opposite side is empty the engine emits exactly one
`Reject(order_id, NotEnoughLiquidity)` and discards the order with the
state untouched; otherwise the matching loop runs, emitting only `Fill`
events, followed by exactly one `Cancel(order_id)` iff some quantity is
left unfilled; and after `SubmitNewOrder` returns the market order is never
present in the identifier index or in either book. -/
theorem market_order_never_rests (st : EngineState) (order : Order)
    (hm : order.type = OrderType.Market)
    (hdup : idsFind order.order_id st.ids = none)
    (hbid : order.order_id ∉ st.bids.map Order.order_id)
    (hask : order.order_id ∉ st.asks.map Order.order_id) :
    (order.side = Side.Buy → st.asks = [] →
        submitNewOrder st order
          = (st, [Event.reject order.order_id RejectMsg.NotEnoughLiquidity])) ∧
    (order.side = Side.Sell → st.bids = [] →
        submitNewOrder st order
          = (st, [Event.reject order.order_id RejectMsg.NotEnoughLiquidity])) ∧
    (order.side = Side.Buy → st.asks ≠ [] →
        ((∀ e ∈ (matchLoop (order.quantity + 1) sellBetter
              { order with cum_qty := 0 } st.asks st.ids).events,
            ∃ i q p, e = Event.fill i q p) ∧
         ((matchLoop (order.quantity + 1) sellBetter
              { order with cum_qty := 0 } st.asks st.ids).order.cum_qty ≠ order.quantity →
            (submitNewOrder st order).2
              = (matchLoop (order.quantity + 1) sellBetter
                  { order with cum_qty := 0 } st.asks st.ids).events
                ++ [Event.cancel order.order_id]) ∧
         ((matchLoop (order.quantity + 1) sellBetter
              { order with cum_qty := 0 } st.asks st.ids).order.cum_qty = order.quantity →
            (submitNewOrder st order).2
              = (matchLoop (order.quantity + 1) sellBetter
                  { order with cum_qty := 0 } st.asks st.ids).events))) ∧
    (order.side = Side.Sell → st.bids ≠ [] →
        ((∀ e ∈ (matchLoop (order.quantity + 1) buyBetter
              { order with cum_qty := 0 } st.bids st.ids).events,
            ∃ i q p, e = Event.fill i q p) ∧
         ((matchLoop (order.quantity + 1) buyBetter
              { order with cum_qty := 0 } st.bids st.ids).order.cum_qty ≠ order.quantity →
            (submitNewOrder st order).2
              = (matchLoop (order.quantity + 1) buyBetter
                  { order with cum_qty := 0 } st.bids st.ids).events
                ++ [Event.cancel order.order_id]) ∧
         ((matchLoop (order.quantity + 1) buyBetter
              { order with cum_qty := 0 } st.bids st.ids).order.cum_qty = order.quantity →
            (submitNewOrder st order).2
              = (matchLoop (order.quantity + 1) buyBetter
                  { order with cum_qty := 0 } st.bids st.ids).events))) ∧
    idsFind order.order_id (submitNewOrder st order).1.ids = none ∧
    order.order_id ∉ ((submitNewOrder st order).1.bids.map Order.order_id) ∧
    order.order_id ∉ ((submitNewOrder st order).1.asks.map Order.order_id) := by
  have hsome : (idsFind order.order_id st.ids).isSome = false := by
    rw [hdup]
    rfl
  rcases (show order.side = Side.Buy ∨ order.side = Side.Sell from by
    cases order.side
    · exact Or.inl rfl
    · exact Or.inr rfl) with hside | hside
  · have hsubmit : submitNewOrder st order =
        (⟨(processOrder buyBetter sellBetter { order with cum_qty := 0 }
             st.bids st.asks st.ids).own,
          (processOrder buyBetter sellBetter { order with cum_qty := 0 }
             st.bids st.asks st.ids).other,
          (processOrder buyBetter sellBetter { order with cum_qty := 0 }
             st.bids st.asks st.ids).ids⟩,
         (processOrder buyBetter sellBetter { order with cum_qty := 0 }
             st.bids st.asks st.ids).events) := by
      simp only [submitNewOrder, hsome, Bool.false_eq_true, if_false, hside]
    have hP := processOrder_market buyBetter sellBetter { order with cum_qty := 0 }
      st.bids st.asks st.ids hm
    have hQ := (matchLoop_order_fields sellBetter (order.quantity + 1)
      { order with cum_qty := 0 } st.asks st.ids).2.2.1
    have hId := (matchLoop_order_fields sellBetter (order.quantity + 1)
      { order with cum_qty := 0 } st.asks st.ids).1
    by_cases hempty : st.asks = []
    · have hPr := hP.1 hempty
      refine ⟨fun _ _ => ?_, fun hS _ => ?_, fun _ hne => absurd hempty hne,
        fun hS _ => ?_, ?_, ?_, ?_⟩
      · rw [hsubmit, hPr]
      · rw [hside] at hS
        exact Side.noConfusion hS
      · rw [hside] at hS
        exact Side.noConfusion hS
      · rw [hsubmit, hPr]
        exact hdup
      · rw [hsubmit, hPr]
        exact hbid
      · rw [hsubmit, hPr]
        exact hask
    · have hPr := hP.2 hempty
      have hfinal_ids : idsFind order.order_id (submitNewOrder st order).1.ids = none := by
        rw [hsubmit, hPr]
        by_cases hcum : (matchLoop (order.quantity + 1) sellBetter
            { order with cum_qty := 0 } st.asks st.ids).order.cum_qty
            = (matchLoop (order.quantity + 1) sellBetter
               { order with cum_qty := 0 } st.asks st.ids).order.quantity
        · rw [if_neg (not_not_intro hcum)]
          exact matchLoop_ids_none sellBetter _ _ _ _ _ hdup
        · rw [if_pos hcum]
          exact matchLoop_ids_none sellBetter _ _ _ _ _ hdup
      have hfinal_asks : order.order_id ∉ ((submitNewOrder st order).1.asks.map Order.order_id) := by
        rw [hsubmit, hPr]
        by_cases hcum : (matchLoop (order.quantity + 1) sellBetter
            { order with cum_qty := 0 } st.asks st.ids).order.cum_qty
            = (matchLoop (order.quantity + 1) sellBetter
               { order with cum_qty := 0 } st.asks st.ids).order.quantity
        · rw [if_neg (not_not_intro hcum)]
          exact fun hmem =>
            hask ((matchLoop_other_suffix sellBetter (order.quantity + 1)
              { order with cum_qty := 0 } st.asks st.ids).subset hmem)
        · rw [if_pos hcum]
          exact fun hmem =>
            hask ((matchLoop_other_suffix sellBetter (order.quantity + 1)
              { order with cum_qty := 0 } st.asks st.ids).subset hmem)
      have hfinal_bids : order.order_id ∉ ((submitNewOrder st order).1.bids.map Order.order_id) := by
        rw [hsubmit, hPr]
        by_cases hcum : (matchLoop (order.quantity + 1) sellBetter
            { order with cum_qty := 0 } st.asks st.ids).order.cum_qty
            = (matchLoop (order.quantity + 1) sellBetter
               { order with cum_qty := 0 } st.asks st.ids).order.quantity
        · rw [if_neg (not_not_intro hcum)]
          exact hbid
        · rw [if_pos hcum]
          exact hbid
      refine ⟨fun _ h => absurd h hempty, fun hS _ => ?_, fun _ _ => ⟨?_, ?_, ?_⟩,
        fun hS _ => ?_, hfinal_ids, hfinal_bids, hfinal_asks⟩
      · rw [hside] at hS
        exact Side.noConfusion hS
      · exact matchLoop_events_fill sellBetter _ _ _ _
      · intro hleft
        rw [hsubmit, hPr]
        rw [if_pos (show ¬ (matchLoop (order.quantity + 1) sellBetter
            { order with cum_qty := 0 } st.asks st.ids).order.cum_qty
            = (matchLoop (order.quantity + 1) sellBetter
               { order with cum_qty := 0 } st.asks st.ids).order.quantity from by
          rw [hQ]
          exact hleft)]
        rw [hId]
      · intro hfull
        rw [hsubmit, hPr]
        rw [if_neg (not_not_intro (show (matchLoop (order.quantity + 1) sellBetter
            { order with cum_qty := 0 } st.asks st.ids).order.cum_qty
            = (matchLoop (order.quantity + 1) sellBetter
               { order with cum_qty := 0 } st.asks st.ids).order.quantity from by
          rw [hQ]
          exact hfull))]
      · rw [hside] at hS
        exact Side.noConfusion hS
  · have hsubmit : submitNewOrder st order =
        (⟨(processOrder sellBetter buyBetter { order with cum_qty := 0 }
             st.asks st.bids st.ids).other,
          (processOrder sellBetter buyBetter { order with cum_qty := 0 }
             st.asks st.bids st.ids).own,
          (processOrder sellBetter buyBetter { order with cum_qty := 0 }
             st.asks st.bids st.ids).ids⟩,
         (processOrder sellBetter buyBetter { order with cum_qty := 0 }
             st.asks st.bids st.ids).events) := by
      simp only [submitNewOrder, hsome, Bool.false_eq_true, if_false, hside]
    have hP := processOrder_market sellBetter buyBetter { order with cum_qty := 0 }
      st.asks st.bids st.ids hm
    have hQ := (matchLoop_order_fields buyBetter (order.quantity + 1)
      { order with cum_qty := 0 } st.bids st.ids).2.2.1
    have hId := (matchLoop_order_fields buyBetter (order.quantity + 1)
      { order with cum_qty := 0 } st.bids st.ids).1
    by_cases hempty : st.bids = []
    · have hPr := hP.1 hempty
      refine ⟨fun hS _ => ?_, fun _ _ => ?_, fun hS _ => ?_,
        fun _ hne => absurd hempty hne, ?_, ?_, ?_⟩
      · rw [hside] at hS
        exact Side.noConfusion hS
      · rw [hsubmit, hPr]
      · rw [hside] at hS
        exact Side.noConfusion hS
      · rw [hsubmit, hPr]
        exact hdup
      · rw [hsubmit, hPr]
        exact hbid
      · rw [hsubmit, hPr]
        exact hask
    · have hPr := hP.2 hempty
      have hfinal_ids : idsFind order.order_id (submitNewOrder st order).1.ids = none := by
        rw [hsubmit, hPr]
        by_cases hcum : (matchLoop (order.quantity + 1) buyBetter
            { order with cum_qty := 0 } st.bids st.ids).order.cum_qty
            = (matchLoop (order.quantity + 1) buyBetter
               { order with cum_qty := 0 } st.bids st.ids).order.quantity
        · rw [if_neg (not_not_intro hcum)]
          exact matchLoop_ids_none buyBetter _ _ _ _ _ hdup
        · rw [if_pos hcum]
          exact matchLoop_ids_none buyBetter _ _ _ _ _ hdup
      have hfinal_bids : order.order_id ∉ ((submitNewOrder st order).1.bids.map Order.order_id) := by
        rw [hsubmit, hPr]
        by_cases hcum : (matchLoop (order.quantity + 1) buyBetter
            { order with cum_qty := 0 } st.bids st.ids).order.cum_qty
            = (matchLoop (order.quantity + 1) buyBetter
               { order with cum_qty := 0 } st.bids st.ids).order.quantity
        · rw [if_neg (not_not_intro hcum)]
          exact fun hmem =>
            hbid ((matchLoop_other_suffix buyBetter (order.quantity + 1)
              { order with cum_qty := 0 } st.bids st.ids).subset hmem)
        · rw [if_pos hcum]
          exact fun hmem =>
            hbid ((matchLoop_other_suffix buyBetter (order.quantity + 1)
              { order with cum_qty := 0 } st.bids st.ids).subset hmem)
      have hfinal_asks : order.order_id ∉ ((submitNewOrder st order).1.asks.map Order.order_id) := by
        rw [hsubmit, hPr]
        by_cases hcum : (matchLoop (order.quantity + 1) buyBetter
            { order with cum_qty := 0 } st.bids st.ids).order.cum_qty
            = (matchLoop (order.quantity + 1) buyBetter
               { order with cum_qty := 0 } st.bids st.ids).order.quantity
        · rw [if_neg (not_not_intro hcum)]
          exact hask
        · rw [if_pos hcum]
          exact hask
      refine ⟨fun hS _ => ?_, fun _ h => absurd h hempty, fun hS _ => ?_,
        fun _ _ => ⟨?_, ?_, ?_⟩, hfinal_ids, hfinal_bids, hfinal_asks⟩
      · rw [hside] at hS
        exact Side.noConfusion hS
      · rw [hside] at hS
        exact Side.noConfusion hS
      · exact matchLoop_events_fill buyBetter _ _ _ _
      · intro hleft
        rw [hsubmit, hPr]
        rw [if_pos (show ¬ (matchLoop (order.quantity + 1) buyBetter
            { order with cum_qty := 0 } st.bids st.ids).order.cum_qty
            = (matchLoop (order.quantity + 1) buyBetter
               { order with cum_qty := 0 } st.bids st.ids).order.quantity from by
          rw [hQ]
          exact hleft)]
        rw [hId]
      · intro hfull
        rw [hsubmit, hPr]
        rw [if_neg (not_not_intro (show (matchLoop (order.quantity + 1) buyBetter
            { order with cum_qty := 0 } st.bids st.ids).order.cum_qty
            = (matchLoop (order.quantity + 1) buyBetter
               { order with cum_qty := 0 } st.bids st.ids).order.quantity from by
          rw [hQ]
          exact hfull))]

theorem market_order_never_rests_witness :
    submitNewOrder EngineState.empty ⟨9, 0, 4, 0, Side.Buy, OrderType.Market⟩
      = (EngineState.empty, [Event.reject 9 RejectMsg.NotEnoughLiquidity]) :=
  (market_order_never_rests EngineState.empty ⟨9, 0, 4, 0, Side.Buy, OrderType.Market⟩
    rfl rfl (by decide) (by decide)).1 rfl rfl

/-! ### Price and time priority of the book structure -/

/-- The ordering invariant `std::multimap` maintains for a book side: no
later entry has a strictly better price than an earlier entry (equal
prices stay in insertion order). -/
def BookOrdered (comp : Int → Int → Bool) (l : List Order) : Prop :=
  l.Pairwise (fun a b => comp b.price a.price = false)

instance (comp : Int → Int → Bool) (l : List Order) : Decidable (BookOrdered comp l) := by
  unfold BookOrdered
  exact inferInstance

theorem insertOrder_position (comp : Int → Int → Bool) (o : Order) :
    ∀ l : List Order, ∃ l1 l2, l = l1 ++ l2 ∧
      insertOrder comp o l = l1 ++ o :: l2 ∧
      (∀ x ∈ l1, comp o.price x.price = false) ∧
      (∀ y ∈ l2.head?, comp o.price y.price = true) := by
  intro l
  induction l with
  | nil =>
    refine ⟨[], [], rfl, rfl, ?_, ?_⟩
    · intro x hx
      exact absurd hx (List.not_mem_nil x)
    · intro y hy
      exact absurd hy (by simp)
  | cons x xs ih =>
    by_cases hc : comp o.price x.price = true
    · refine ⟨[], x :: xs, rfl, ?_, ?_, ?_⟩
      · simp [insertOrder, hc]
      · intro z hz
        exact absurd hz (List.not_mem_nil z)
      · intro y hy
        have hxy : x = y := by simpa using hy
        rw [← hxy]
        exact hc
    · have hcf : comp o.price x.price = false := by
        revert hc
        cases comp o.price x.price
        · intro _
          rfl
        · intro h
          exact absurd rfl h
      obtain ⟨l1, l2, heq, hins, h1, h2⟩ := ih
      refine ⟨x :: l1, l2, by simp [heq], ?_, ?_, h2⟩
      · simp only [insertOrder, hcf]
        rw [if_neg (by simp), hins]
        simp
      · intro z hz
        rcases List.mem_cons.mp hz with hz | hz
        · rw [hz]
          exact hcf
        · exact h1 z hz

theorem insertOrder_mem (comp : Int → Int → Bool) (o z : Order) :
    ∀ l : List Order, z ∈ insertOrder comp o l ↔ z = o ∨ z ∈ l := by
  intro l
  induction l with
  | nil => simp [insertOrder]
  | cons x xs ih =>
    by_cases hc : comp o.price x.price = true
    · simp only [insertOrder, if_pos hc, List.mem_cons]
    · simp only [insertOrder, if_neg hc, List.mem_cons, ih]
      tauto

theorem insertOrder_pairwise (comp : Int → Int → Bool)
    (hasym : ∀ a b : Int, comp a b = true → comp b a = false)
    (hstep : ∀ p q r : Int, comp p q = true → comp r q = false → comp r p = false)
    (o : Order) :
    ∀ l : List Order, BookOrdered comp l → BookOrdered comp (insertOrder comp o l) := by
  intro l
  induction l with
  | nil =>
    intro _
    simp [insertOrder, BookOrdered]
  | cons x xs ih =>
    intro hord
    have hx : ∀ b ∈ xs, comp b.price x.price = false := (List.pairwise_cons.mp hord).1
    have hxs : BookOrdered comp xs := (List.pairwise_cons.mp hord).2
    by_cases hc : comp o.price x.price = true
    · simp only [insertOrder, if_pos hc]
      refine List.pairwise_cons.mpr ⟨?_, hord⟩
      intro b hb
      rcases List.mem_cons.mp hb with hb | hb
      · rw [hb]
        exact hasym _ _ hc
      · exact hstep o.price x.price b.price hc (hx b hb)
    · have hcf : comp o.price x.price = false := by
        revert hc
        cases comp o.price x.price
        · intro _
          rfl
        · intro h
          exact absurd rfl h
      simp only [insertOrder, if_neg hc]
      refine List.pairwise_cons.mpr ⟨?_, ih hxs⟩
      intro b hb
      rcases (insertOrder_mem comp o b xs).mp hb with hb | hb
      · rw [hb]
        exact hcf
      · exact hx b hb

/-- C4: price priority and time priority.  Insertion places a new order
after every entry whose price is not strictly worse — in particular after
all entries at its own price, giving FIFO within a price level — and
before the strictly worse tail; insertion preserves the book ordering
invariant; under that invariant the head of the book is the unique best
(no entry of the tail beats it); and a match attempt engages only the head
of the opposite book: the tail is untouched, every emitted fill names only
the incoming order or the head, and the head gives way to the next entry
only once its quantity is exhausted. -/
theorem price_time_priority (comp : Int → Int → Bool)
    (hcomp : comp = buyBetter ∨ comp = sellBetter)
    (o : Order) (book : List Order) (hbook : BookOrdered comp book)
    (first : Order) (rest : List Order) :
    (∃ l1 l2, book = l1 ++ l2 ∧ insertOrder comp o book = l1 ++ o :: l2 ∧
       (∀ x ∈ l1, comp o.price x.price = false) ∧
       (∀ y ∈ l2.head?, comp o.price y.price = true)) ∧
    BookOrdered comp (insertOrder comp o book) ∧
    (book = first :: rest → ∀ x ∈ rest, comp x.price first.price = false) ∧
    (∀ order ids,
       ((matchOne comp order (first :: rest) ids).other = rest ∨
        ∃ f1, (matchOne comp order (first :: rest) ids).other = f1 :: rest ∧
          f1.order_id = first.order_id ∧ f1.price = first.price ∧
          f1.quantity = first.quantity) ∧
       (∀ e ∈ (matchOne comp order (first :: rest) ids).events,
          ∃ q p, e = Event.fill order.order_id q p ∨ e = Event.fill first.order_id q p) ∧
       ((matchOne comp order (first :: rest) ids).other = rest →
          (first.cum_qty + (matchOne comp order (first :: rest) ids).traded) % u32
            = first.quantity)) := by
  refine ⟨insertOrder_position comp o book, ?_, ?_, ?_⟩
  · have hasym : ∀ a b : Int, comp a b = true → comp b a = false := by
      rcases hcomp with h | h <;> subst h <;> intro a b hab <;>
        simp only [buyBetter, sellBetter, decide_eq_true_eq] at hab <;>
        simp only [buyBetter, sellBetter, decide_eq_false_iff_not] <;> omega
    have hstep : ∀ p q r : Int, comp p q = true → comp r q = false → comp r p = false := by
      rcases hcomp with h | h <;> subst h <;> intro p q r h1 h2 <;>
        simp only [buyBetter, sellBetter, decide_eq_true_eq] at h1 <;>
        simp only [buyBetter, sellBetter, decide_eq_false_iff_not] at h2 ⊢ <;> omega
    exact insertOrder_pairwise comp hasym hstep o book hbook
  · intro hbk
    rw [hbk] at hbook
    exact (List.pairwise_cons.mp hbook).1
  · intro order ids
    by_cases hl : leavesQty order = 0
    · rw [matchOne_spent comp order first rest ids hl]
      refine ⟨Or.inr ⟨first, rfl, rfl, rfl, rfl⟩, ?_, ?_⟩
      · intro e he
        exact absurd he (List.not_mem_nil e)
      · intro hrm
        exact absurd hrm (List.cons_ne_self first rest)
    · by_cases hc : (comp order.price first.price = false ∧ order.type = OrderType.Limit)
          ∨ order.type = OrderType.Market
      · rw [matchOne_cross comp order first rest ids hl hc]
        by_cases hrm : first.quantity
            = (first.cum_qty + Nat.min (leavesQty order) (leavesQty first)) % u32
        · rw [if_pos hrm]
          refine ⟨Or.inl rfl, ?_, fun _ => hrm.symm⟩
          intro e he
          simp only [List.mem_cons, List.not_mem_nil, or_false] at he
          rcases he with he | he
          · exact ⟨_, _, Or.inl he⟩
          · exact ⟨_, _, Or.inr he⟩
        · rw [if_neg hrm]
          refine ⟨Or.inr ⟨_, rfl, rfl, rfl, rfl⟩, ?_, ?_⟩
          · intro e he
            simp only [List.mem_cons, List.not_mem_nil, or_false] at he
            rcases he with he | he
            · exact ⟨_, _, Or.inl he⟩
            · exact ⟨_, _, Or.inr he⟩
          · intro habs
            exact absurd habs (List.cons_ne_self _ rest)
      · rw [matchOne_nocross comp order first rest ids hl hc]
        refine ⟨Or.inr ⟨first, rfl, rfl, rfl, rfl⟩, ?_, ?_⟩
        · intro e he
          exact absurd he (List.not_mem_nil e)
        · intro hrm
          exact absurd hrm (List.cons_ne_self first rest)

theorem price_time_priority_witness :
    BookOrdered buyBetter (insertOrder buyBetter ⟨3, 11, 5, 0, Side.Buy, OrderType.Limit⟩
      [⟨1, 12, 5, 0, Side.Buy, OrderType.Limit⟩, ⟨2, 11, 5, 0, Side.Buy, OrderType.Limit⟩,
       ⟨4, 10, 5, 0, Side.Buy, OrderType.Limit⟩]) :=
  (price_time_priority buyBetter (Or.inl rfl) ⟨3, 11, 5, 0, Side.Buy, OrderType.Limit⟩
    [⟨1, 12, 5, 0, Side.Buy, OrderType.Limit⟩, ⟨2, 11, 5, 0, Side.Buy, OrderType.Limit⟩,
     ⟨4, 10, 5, 0, Side.Buy, OrderType.Limit⟩]
    (by decide) ⟨0, 0, 0, 0, Side.Buy, OrderType.Limit⟩ []).2.1

end Matching
